import Mathlib

/-!
Verification of the `centauri` grandpa prover and ics10-grandpa header model.

This file shallowly embeds the two core source files:

* `light-clients/ics10-grandpa/src/header.rs` — the verifiable `Header`
  data model and its conversions `TryFrom<RawHeader> for Header` and
  `From<Header> for RawHeader` (namespace `GrandpaLC`);
* `algorithms/grandpa/prover/src/lib.rs` — the proof-assembly engine's
  operations `query_finalized_parachain_headers_between` and
  `query_finalized_parachain_headers_with_proof` (namespace `GrandpaProver`).

Machine bytes are `Nat`s in lists; maps (`BTreeMap`) are sorted association
lists; the chain-access facade (RPC client), which is an external collaborator
of the repository, is a record of functions; the external SCALE codec is
modelled by an executable codec of the same field-by-field shape.
-/

namespace GrandpaLC

/-- Byte strings are lists of naturals (each conceptually < 256). -/
abbrev Bytes := List Nat

/-- Fixed 32-byte hash, modelling `primitive_types::H256`. -/
def H256 := { l : Bytes // l.length = 32 }

instance : DecidableEq H256 :=
  inferInstanceAs (DecidableEq { l : Bytes // l.length = 32 })

/-- Lexicographic byte order, modelling the `Ord` instance `BTreeMap<H256, _>`
keys are sorted by. -/
def bytesLt : Bytes → Bytes → Bool
  | [], [] => false
  | [], _ :: _ => true
  | _ :: _, [] => false
  | a :: as, b :: bs => if a < b then true else if b < a then false else bytesLt as bs

/-- In-memory parachain header proofs: a state proof for the parachain header
plus the timestamp extrinsic with its inclusion proof
(`grandpa_client_primitives::ParachainHeaderProofs`). -/
structure ParachainHeaderProofs where
  state_proof : List Bytes
  extrinsic : Bytes
  extrinsic_proof : List Bytes
deriving DecidableEq

/-- In-memory relay chain header,
`RelayChainHeader = sp_runtime::generic::Header<u32, BlakeTwo256>`. -/
structure RelayChainHeader where
  parent_hash : H256
  number : Nat
  state_root : H256
  extrinsics_root : H256
  digest : Bytes
deriving DecidableEq

/-- Little-endian 4-byte encoding of a `u32`, part of the modelled external
SCALE codec for `RelayChainHeader`. -/
def encodeU32 (n : Nat) : Bytes :=
  [n % 256, n / 256 % 256, n / 65536 % 256, n / 16777216 % 256]

/-- Inverse of `encodeU32`, returning the decoded value and the remaining
input. -/
def decodeU32 : Bytes → Option (Nat × Bytes)
  | a :: b :: c :: d :: rest => some (a + 256 * b + 65536 * c + 16777216 * d, rest)
  | _ => none

/-- Split off exactly `n` leading bytes, failing on short input. -/
def takeBytes (n : Nat) (l : Bytes) : Option (Bytes × Bytes) :=
  if n ≤ l.length then some (l.take n, l.drop n) else none

/-- Models the external SCALE `Encode` for `RelayChainHeader`: the
concatenation of the fixed-width fields followed by the length-prefixed
digest. (The external library uses a compact integer for the block number;
the fixed 4-byte width is an encoding detail of the external codec, not of
this repository.) -/
def encodeRelayHeader (h : RelayChainHeader) : Bytes :=
  h.parent_hash.val ++ encodeU32 h.number ++ h.state_root.val ++
    h.extrinsics_root.val ++ encodeU32 h.digest.length ++ h.digest

/-- Models the external SCALE `Decode` for `RelayChainHeader`; like the
external decoder it ignores any trailing input. -/
def decodeRelayHeader (l : Bytes) : Option RelayChainHeader :=
  match takeBytes 32 l with
  | none => none
  | some (ph, r1) =>
    match decodeU32 r1 with
    | none => none
    | some (num, r2) =>
      match takeBytes 32 r2 with
      | none => none
      | some (sr, r3) =>
        match takeBytes 32 r3 with
        | none => none
        | some (er, r4) =>
          match decodeU32 r4 with
          | none => none
          | some (dlen, r5) =>
            match takeBytes dlen r5 with
            | none => none
            | some (dg, _) =>
              if hph : ph.length = 32 then
                if hsr : sr.length = 32 then
                  if her : er.length = 32 then
                    some ⟨⟨ph, hph⟩, num, ⟨sr, hsr⟩, ⟨er, her⟩, dg⟩
                  else none
                else none
              else none

/-- A relay header whose numeric fields fit the wire widths of the external
codec (`number` is a `u32`; the digest length is encodable). -/
def WellFormedRelayHeader (h : RelayChainHeader) : Prop :=
  h.number < 4294967296 ∧ h.digest.length < 4294967296

instance (h : RelayChainHeader) : Decidable (WellFormedRelayHeader h) := by
  unfold WellFormedRelayHeader; infer_instance

/-- In-memory finality proof over relay chain headers
(`grandpa_client_primitives::FinalityProof<RelayChainHeader>`). -/
structure FinalityProofLC where
  block : H256
  justification : Bytes
  unknown_headers : List RelayChainHeader
deriving DecidableEq

/-- The in-memory `Header` of `ics10-grandpa`: a finality proof plus a
`BTreeMap<H256, ParachainHeaderProofs>`, the map represented as its sorted
association list. -/
structure Header where
  finality_proof : FinalityProofLC
  parachain_headers : List (H256 × ParachainHeaderProofs)
deriving DecidableEq

/-- Wire `FinalityProof` message: `block` is raw bytes of arbitrary length,
`unknown_headers` are SCALE-encoded headers. -/
structure RawFinalityProof where
  block : Bytes
  justification : Bytes
  unknown_headers : List Bytes
deriving DecidableEq

/-- Wire `ParachainHeaderProofs` message. -/
structure RawParachainHeaderProofs where
  state_proof : List Bytes
  extrinsic : Bytes
  extrinsic_proof : List Bytes
deriving DecidableEq

/-- Wire `ParachainHeaderWithRelayHash` message: a raw relay hash plus an
optional proofs sub-message. -/
structure RawParachainEntry where
  relay_hash : Bytes
  parachain_header : Option RawParachainHeaderProofs
deriving DecidableEq

/-- Wire `Header` message (`proto::Header`, alias `RawHeader`): an optional
finality proof and a list of parachain entries. -/
structure RawHeader where
  finality_proof : Option RawFinalityProof
  parachain_headers : List RawParachainEntry
deriving DecidableEq

/-- Conversion errors of `TryFrom<RawHeader> for Header`, one constructor per
distinct `anyhow!`/decode failure in the source. -/
inductive HeaderError
  /-- missing finality proof sub-message. -/
  | missingFinalityProof
  /-- a hash field had a byte length other than 32; carries that length. -/
  | invalidHashLength (len : Nat)
  /-- missing parachain-header proofs sub-message. -/
  | missingParachainHeader
  /-- an `unknown_headers` entry failed to SCALE-decode. -/
  | headerDecodeError
deriving DecidableEq

/-- Insert into a `BTreeMap<H256, ParachainHeaderProofs>` represented as an
association list sorted by `bytesLt`; an existing binding of the key is
replaced. -/
def insertSorted (k : H256) (v : ParachainHeaderProofs) :
    List (H256 × ParachainHeaderProofs) → List (H256 × ParachainHeaderProofs)
  | [] => [(k, v)]
  | (k', v') :: t =>
    if bytesLt k.val k'.val then (k, v) :: (k', v') :: t
    else if k = k' then (k, v) :: t
    else (k', v') :: insertSorted k v t

/-- Lookup in the association-list `BTreeMap` representation. -/
def lookupKey (k : H256) : List (H256 × ParachainHeaderProofs) → Option ParachainHeaderProofs
  | [] => none
  | (k', v') :: t => if k = k' then some v' else lookupKey k t

/-- Per-entry step of `TryFrom<RawHeader>`: validate the relay hash length,
require the proofs sub-message, and copy its fields
(header.rs lines 69–86). Entries are processed left to right, stopping at
the first error, exactly as `Iterator::collect::<Result<_, _>>` does. -/
def collectEntries : List RawParachainEntry →
    Except HeaderError (List (H256 × ParachainHeaderProofs))
  | [] => .ok []
  | e :: t =>
    if h : e.relay_hash.length = 32 then
      match e.parachain_header with
      | none => .error .missingParachainHeader
      | some p =>
        match collectEntries t with
        | .error err => .error err
        | .ok rest => .ok ((⟨e.relay_hash, h⟩, ⟨p.state_proof, p.extrinsic, p.extrinsic_proof⟩) :: rest)
    else .error (.invalidHashLength e.relay_hash.length)

/-- Decode every wire `unknown_headers` entry, stopping at the first decode
failure (header.rs lines 88–95). -/
def decodeUnknownHeaders : List Bytes → Except HeaderError (List RelayChainHeader)
  | [] => .ok []
  | b :: t =>
    match decodeRelayHeader b with
    | none => .error .headerDecodeError
    | some h =>
      match decodeUnknownHeaders t with
      | .error err => .error err
      | .ok rest => .ok (h :: rest)

/-- Embedding of `TryFrom<RawHeader> for Header` (header.rs lines 56–106):
require the finality proof, validate the 32-byte `block` hash, convert the
parachain entries collecting them into the `BTreeMap`, then decode the
unknown headers. -/
def tryFromRawHeader (raw : RawHeader) : Except HeaderError Header :=
  match raw.finality_proof with
  | none => .error .missingFinalityProof
  | some fp =>
    if hb : fp.block.length = 32 then
      match collectEntries raw.parachain_headers with
      | .error err => .error err
      | .ok entries =>
        match decodeUnknownHeaders fp.unknown_headers with
        | .error err => .error err
        | .ok unknown_headers =>
          .ok { finality_proof :=
                  { block := ⟨fp.block, hb⟩
                    justification := fp.justification
                    unknown_headers := unknown_headers }
                parachain_headers :=
                  entries.foldl (fun m kv => insertSorted kv.1 kv.2 m) [] }
    else .error (.invalidHashLength fp.block.length)

/-- Per-entry step of `From<Header> for RawHeader` (header.rs lines 110–121):
a map binding becomes a wire entry with the raw hash bytes and the proofs
wrapped in the sub-message. -/
def entryToRaw (kv : H256 × ParachainHeaderProofs) : RawParachainEntry :=
  { relay_hash := kv.1.val
    parachain_header := some
      { state_proof := kv.2.state_proof
        extrinsic := kv.2.extrinsic
        extrinsic_proof := kv.2.extrinsic_proof } }

/-- Embedding of `From<Header> for RawHeader` (header.rs lines 108–134): emit
the map entries in their (sorted) order and re-encode each unknown header. -/
def fromHeader (h : Header) : RawHeader :=
  { finality_proof := some
      { block := h.finality_proof.block.val
        justification := h.finality_proof.justification
        unknown_headers := h.finality_proof.unknown_headers.map encodeRelayHeader }
    parachain_headers := h.parachain_headers.map entryToRaw }

/-- The `BTreeMap` representation invariant: keys strictly ascending in
`bytesLt`. -/
def SortedKeys (l : List (H256 × ParachainHeaderProofs)) : Prop :=
  l.Pairwise (fun a b => bytesLt a.1.val b.1.val = true)

/-- A wire header all of whose components pass the conversion's checks. -/
def RawConvertible (raw : RawHeader) : Prop :=
  (∃ fp, raw.finality_proof = some fp ∧ fp.block.length = 32 ∧
    ∀ b ∈ fp.unknown_headers, (decodeRelayHeader b).isSome) ∧
  ∀ e ∈ raw.parachain_headers,
    e.relay_hash.length = 32 ∧ ∃ p, e.parachain_header = some p

/-- Value bound to `k` by the last binding of `k` in the given entry list, if
any. -/
def lastVal (k : H256) : List (H256 × ParachainHeaderProofs) → Option ParachainHeaderProofs
  | [] => none
  | kv :: t =>
    match lastVal k t with
    | some v => some v
    | none => if kv.1 = k then some kv.2 else none

/-- Last wire entry carrying the given relay-hash bytes, if any. -/
def lastRaw (s : Bytes) : List RawParachainEntry → Option RawParachainEntry
  | [] => none
  | e :: t =>
    match lastRaw s t with
    | some x => some x
    | none => if e.relay_hash = s then some e else none

end GrandpaLC

namespace GrandpaProver

/-- Relay chain header as used by the prover (`T::Header`): the engine reads
only its number and parent hash (the hash itself is computed, see
`ChainApi.headerHash`). -/
structure RelayHeader where
  number : Nat
  parent_hash : Nat
deriving DecidableEq

/-- Decoded parachain header (`T::Header` of the parachain): the engine reads
its number and its (computed) hash. -/
structure ParaHeader where
  number : Nat
  hash : Nat
deriving DecidableEq

/-- Decoded finality proof (`primitives::FinalityProof<H>`): block hash,
opaque justification bytes, and unknown headers (the decoded value's
`unknown_headers` are discarded and rebuilt by the prover). -/
structure FinalityProof where
  block : Nat
  justification : List Nat
  unknown_headers : List RelayHeader
deriving DecidableEq

/-- Parachain header proofs assembled by the prover
(`primitives::ParachainHeaderProofs`). -/
structure ParachainHeaderProofs where
  state_proof : List (List Nat)
  extrinsic : List Nat
  extrinsic_proof : List (List Nat)
deriving DecidableEq

/-- Result bundle of `query_finalized_parachain_headers_with_proof`
(`primitives::ParachainHeadersWithFinalityProof`); the
`BTreeMap<H::Hash, ParachainHeaderProofs>` is represented as its sorted
association list. -/
structure ParachainHeadersWithFinalityProof where
  finality_proof : FinalityProof
  parachain_headers : List (Nat × ParachainHeaderProofs)
deriving DecidableEq

/-- Error values of the prover operations, one constructor per distinct
`anyhow!`/`?` failure site in `lib.rs`. -/
inductive PErr
  /-- anyhow "Header not found!" — the lookup of `latest_finalized_hash`. -/
  | headerNotFound
  /-- anyhow "No justification found for block: ..." — carries the hash. -/
  | noJustification (hash : Nat)
  /-- `FinalityProof::decode` failure (propagated codec error). -/
  | finalityProofDecodeError
  /-- anyhow "Header with hash: ... not found!" — ancestor-walk lookup. -/
  | headerWithHashNotFound (hash : Nat)
  /-- models divergence of the unbounded `loop` when the walk never reaches
  `previous_finalized_hash` nor a missing header (fuel exhausted). -/
  | fuelExhausted
  /-- failure of the `query_storage` RPC call. -/
  | storageQueryError
  /-- anyhow "block not found ..." / "[get_parachain_headers] block not found ...". -/
  | blockNotFound (hash : Nat)
  /-- parachain header `Decode::decode` failure in `..._with_proof`. -/
  | headerDecodeError
  /-- anyhow "Failed to decode header" in `..._between`. -/
  | failedToDecodeHeader
  /-- failure of the `read_proof` RPC call. -/
  | readProofError
  /-- anyhow "Error fetching timestamp with proof: ...". -/
  | timestampExtError
deriving DecidableEq

/-- Outcome of a prover operation: a value, an error return (`Err`), or an
aborted call — the Rust `.expect(...)` unwinds instead of returning `Err`,
so it is kept distinct from the error constructors. -/
inductive PRes (α : Type)
  | ok (a : α)
  | err (e : PErr)
  | panicked (msg : String)
deriving DecidableEq

/-- The chain-access facade (the `subxt` relay/para clients plus helper
crates), an external collaborator of the repository, as a record of
functions. `none` models a not-found / failed call. -/
structure ChainApi where
  /-- `relay_client.rpc().header(Some(hash))`. -/
  header : Nat → Option RelayHeader
  /-- `Header::hash()`, the (external) hash of an encoded header. -/
  headerHash : RelayHeader → Nat
  /-- `GrandpaApiClient::prove_finality(number)`: encoded justification. -/
  proveFinality : Nat → Option (List Nat)
  /-- external SCALE decode of `FinalityProof<H>`. -/
  decodeFinalityProof : List Nat → Option FinalityProof
  /-- `storage().query_storage(keys, from, to)`: blocks where the parachain
  head storage key changed, in ascending block order. -/
  queryStorage : Nat → Nat → Option (List Nat)
  /-- `api.storage().paras().heads(Id(para_id), Some(at))`: head bytes. -/
  parasHeads : Nat → Option (List Nat)
  /-- external SCALE decode of the parachain `T::Header`. -/
  decodeParaHeader : List Nat → Option ParaHeader
  /-- `rpc().read_proof(keys, Some(at))`: state proof nodes. -/
  readProof : Nat → Option (List (List Nat))
  /-- `fetch_timestamp_extrinsic_with_proof(&para_client, Some(at))`. -/
  fetchTimestampExtProof : Nat → Option (List Nat × List (List Nat))

/-- The backward ancestor walk of `..._with_proof` (lib.rs lines 122–135):
starting from `current`, repeatedly fetch the header and step to its parent
until `current` equals `previous`; collects the fetched headers in walk
order. The Rust `loop` is unbounded, so the embedding takes fuel and reports
exhaustion as `fuelExhausted`. -/
def walkFrom (api : ChainApi) : Nat → Nat → Nat → PRes (List RelayHeader)
  | 0, _, _ => .err .fuelExhausted
  | fuel + 1, current, previous =>
    if current = previous then .ok []
    else
      match api.header current with
      | none => .err (.headerWithHashNotFound current)
      | some hdr =>
        match walkFrom api fuel hdr.parent_hash previous with
        | .ok rest => .ok (hdr :: rest)
        | .err e => .err e
        | .panicked m => .panicked m

/-- Loop body of `query_finalized_parachain_headers_between`
(lib.rs lines 72–88): for each changed block, fetch its relay header, read
the parachain head committed there (`.expect` aborts when absent), and
decode it. -/
def betweenLoop (api : ChainApi) : List Nat → PRes (List ParaHeader)
  | [] => .ok []
  | b :: rest =>
    match api.header b with
    | none => .err (.blockNotFound b)
    | some hdr =>
      match api.parasHeads (api.headerHash hdr) with
      | none => .panicked "Header exists in its own changeset; qed"
      | some head =>
        match api.decodeParaHeader head with
        | none => .err .failedToDecodeHeader
        | some p =>
          match betweenLoop api rest with
          | .ok l => .ok (p :: l)
          | .err e => .err e
          | .panicked m => .panicked m

/-- Embedding of `query_finalized_parachain_headers_between`
(lib.rs lines 51–91). -/
def query_finalized_parachain_headers_between (api : ChainApi)
    (latest_finalized_hash previous_finalized_hash : Nat) : PRes (List ParaHeader) :=
  match api.queryStorage previous_finalized_hash latest_finalized_hash with
  | none => .err .storageQueryError
  | some change_set => betweenLoop api change_set

/-- Insert into a `BTreeMap<H::Hash, _>` represented as an association list
sorted by `<` on `Nat` keys; an existing binding of the key is replaced. -/
def insertSortedNat (k : Nat) (v : ParachainHeaderProofs) :
    List (Nat × ParachainHeaderProofs) → List (Nat × ParachainHeaderProofs)
  | [] => [(k, v)]
  | (k', v') :: t =>
    if k < k' then (k, v) :: (k', v') :: t
    else if k = k' then (k, v) :: t
    else (k', v') :: insertSortedNat k v t

/-- Loop body of `query_finalized_parachain_headers_with_proof`
(lib.rs lines 153–192): for each changed block, fetch the relay header, read
and decode the committed parachain head (`.expect` aborts when the head is
absent), skip genesis or non-requested heights, otherwise fetch the state
proof and timestamp extrinsic proof and insert into the map. -/
def processChanges (api : ChainApi) (header_numbers : List Nat) :
    List Nat → List (Nat × ParachainHeaderProofs) →
    PRes (List (Nat × ParachainHeaderProofs))
  | [], m => .ok m
  | b :: rest, m =>
    match api.header b with
    | none => .err (.blockNotFound b)
    | some hdr =>
      match api.parasHeads (api.headerHash hdr) with
      | none => .panicked "Header exists in its own changeset; qed"
      | some bytes =>
        match api.decodeParaHeader bytes with
        | none => .err .headerDecodeError
        | some p =>
          if p.number = 0 ∨ ¬ p.number ∈ header_numbers then
            processChanges api header_numbers rest m
          else
            match api.readProof (api.headerHash hdr) with
            | none => .err .readProofError
            | some state_proof =>
              match api.fetchTimestampExtProof p.hash with
              | none => .err .timestampExtError
              | some (extrinsic, extrinsic_proof) =>
                processChanges api header_numbers rest
                  (insertSortedNat (api.headerHash hdr)
                    ⟨state_proof, extrinsic, extrinsic_proof⟩ m)

/-- Embedding of `query_finalized_parachain_headers_with_proof`
(lib.rs lines 95–195): fetch the latest finalized header, its justification,
decode the finality proof, rebuild `unknown_headers` by the backward walk,
then scan the storage change set assembling per-block proofs. The recoding
`H::decode(&mut &header.encode()[..])` between the two (externally equal)
header codecs is modelled as the identity. -/
def query_finalized_parachain_headers_with_proof (api : ChainApi) (fuel : Nat)
    (latest_finalized_hash previous_finalized_hash : Nat)
    (header_numbers : List Nat) : PRes ParachainHeadersWithFinalityProof :=
  match api.header latest_finalized_hash with
  | none => .err .headerNotFound
  | some hdr =>
    match api.proveFinality hdr.number with
    | none => .err (.noJustification (api.headerHash hdr))
    | some encoded =>
      match api.decodeFinalityProof encoded with
      | none => .err .finalityProofDecodeError
      | some fp =>
        match walkFrom api fuel hdr.parent_hash previous_finalized_hash with
        | .err e => .err e
        | .panicked m => .panicked m
        | .ok tail =>
          match api.queryStorage previous_finalized_hash latest_finalized_hash with
          | none => .err .storageQueryError
          | some change_set =>
            match processChanges api header_numbers change_set [] with
            | .err e => .err e
            | .panicked m => .panicked m
            | .ok parachain_headers =>
              .ok { finality_proof :=
                      { block := fp.block
                        justification := fp.justification
                        unknown_headers := hdr :: tail }
                    parachain_headers := parachain_headers }

/-- Facade contract: header lookup by hash returns a header hashing to the
queried hash. -/
def HeaderFetchHonest (api : ChainApi) : Prop :=
  ∀ h hdr, api.header h = some hdr → api.headerHash hdr = h

/-- The links of the backward walk: `linksFrom api prev c l` says that `l` is
the exact chain of headers the facade yields starting at hash `c` and
following parent hashes down to (excluding) `prev`. -/
def linksFrom (api : ChainApi) (prev : Nat) : Nat → List RelayHeader → Prop
  | c, [] => c = prev
  | c, hdr :: t => api.header c = some hdr ∧ linksFrom api prev hdr.parent_hash t

end GrandpaProver

deriving instance DecidableEq for Except

namespace GrandpaProver

/-- Concrete three-block relay chain (hash `n` for block `n`, parent
`n - 1`), with a parachain head change at relay block 2 committing the
parachain header number 5: the success fixture for the prover theorems. -/
def wApi : ChainApi where
  header := fun h =>
    if h = 1 then some ⟨1, 0⟩
    else if h = 2 then some ⟨2, 1⟩
    else if h = 3 then some ⟨3, 2⟩ else none
  headerHash := fun hdr => hdr.number
  proveFinality := fun n => if n = 3 then some [7] else none
  decodeFinalityProof := fun b => if b = [7] then some ⟨3, [9], []⟩ else none
  queryStorage := fun p l => if p = 1 ∧ l = 3 then some [2] else none
  parasHeads := fun k => if k = 2 then some [11] else none
  decodeParaHeader := fun b => if b = [11] then some ⟨5, 100⟩ else none
  readProof := fun k => if k = 2 then some [[4]] else none
  fetchTimestampExtProof := fun h => if h = 100 then some ([2], [[3]]) else none

/-- Fixture in which relay block 2 — a genuine ancestor of block 3 — has been
pruned from the facade, so the ancestor walk hits an ordinary lookup
failure. -/
def prunedApi : ChainApi where
  header := fun h => if h = 3 then some ⟨3, 2⟩ else none
  headerHash := fun hdr => hdr.number
  proveFinality := fun n => if n = 3 then some [7] else none
  decodeFinalityProof := fun b => if b = [7] then some ⟨3, [9], []⟩ else none
  queryStorage := fun _ _ => none
  parasHeads := fun _ => none
  decodeParaHeader := fun _ => none
  readProof := fun _ => none
  fetchTimestampExtProof := fun _ => none

/-- Fixture in which the storage change set reports relay block 5 but the
parachain head storage read at block 5 returns nothing: the panic fixture. -/
def panicApi : ChainApi where
  header := fun h =>
    if h = 3 then some ⟨3, 2⟩ else if h = 5 then some ⟨5, 4⟩ else none
  headerHash := fun hdr => hdr.number
  proveFinality := fun n => if n = 3 then some [7] else none
  decodeFinalityProof := fun b => if b = [7] then some ⟨3, [9], []⟩ else none
  queryStorage := fun p l => if p = 2 ∧ l = 3 then some [5] else none
  parasHeads := fun _ => none
  decodeParaHeader := fun _ => none
  readProof := fun _ => none
  fetchTimestampExtProof := fun _ => none

/-- The bundle produced by `wApi` for latest hash 3, previous hash 1,
requested parachain heights `[5]`. -/
def wRes : ParachainHeadersWithFinalityProof :=
  { finality_proof := { block := 3, justification := [9], unknown_headers := [⟨3, 2⟩, ⟨2, 1⟩] }
    parachain_headers := [(2, ⟨[[4]], [2], [[3]]⟩)] }

end GrandpaProver

namespace GrandpaLC

/-- Concrete 32-byte hash fixture. -/
def wKey : H256 := ⟨List.replicate 32 1, by decide⟩

/-- Concrete proofs fixture. -/
def wProofs : ParachainHeaderProofs := ⟨[[1]], [2], [[3]]⟩

/-- Concrete well-formed relay chain header fixture. -/
def wRelayHeader : RelayChainHeader :=
  { parent_hash := ⟨List.replicate 32 0, by decide⟩
    number := 7
    state_root := ⟨List.replicate 32 2, by decide⟩
    extrinsics_root := ⟨List.replicate 32 3, by decide⟩
    digest := [5, 6] }

/-- Concrete well-formed in-memory header fixture. -/
def wHeader : Header :=
  { finality_proof := { block := wKey, justification := [4], unknown_headers := [wRelayHeader] }
    parachain_headers := [(wKey, wProofs)] }

/-- Wire fixture whose finality proof's `block` has 3 bytes. -/
def rawBadBlock : RawHeader :=
  { finality_proof := some { block := [1, 2, 3], justification := [], unknown_headers := [] }
    parachain_headers := [] }

/-- Wire fixture with a well-formed finality proof but a first parachain
entry whose relay hash has 31 bytes. -/
def rawBadEntry : RawHeader :=
  { finality_proof := some
      { block := List.replicate 32 0, justification := [], unknown_headers := [] }
    parachain_headers := [{ relay_hash := List.replicate 31 0, parachain_header := some ⟨[], [], []⟩ }] }

/-- Wire fixture that is malformed twice over: the finality proof is missing
entirely AND its only parachain entry has a 0-byte relay hash. -/
def rawDoublyBad : RawHeader :=
  { finality_proof := none
    parachain_headers := [{ relay_hash := [], parachain_header := some ⟨[], [], []⟩ }] }

/-- Wire fixture with two parachain entries carrying the same relay hash but
different proofs (the second also differs from the first in its extrinsic). -/
def rawDup : RawHeader :=
  { finality_proof := some
      { block := List.replicate 32 0, justification := [], unknown_headers := [] }
    parachain_headers :=
      [{ relay_hash := List.replicate 32 5, parachain_header := some ⟨[[1]], [1], []⟩ },
       { relay_hash := List.replicate 32 5, parachain_header := some ⟨[[2]], [2], []⟩ }] }

theorem bytesLt_irrefl (l : Bytes) : bytesLt l l = false := by
  induction l with
  | nil => rfl
  | cons a t ih => simp [bytesLt, ih]

theorem bytesLt_trans (a b c : Bytes) (h1 : bytesLt a b = true)
    (h2 : bytesLt b c = true) : bytesLt a c = true := by
  induction a generalizing b c with
  | nil =>
    cases b with
    | nil => simp [bytesLt] at h1
    | cons bh bt =>
      cases c with
      | nil => simp [bytesLt] at h2
      | cons ch ct => simp [bytesLt]
  | cons ah at' ih =>
    cases b with
    | nil => simp [bytesLt] at h1
    | cons bh bt =>
      cases c with
      | nil => simp [bytesLt] at h2
      | cons ch ct =>
        simp only [bytesLt] at h1 h2 ⊢
        split_ifs at h1 h2 ⊢ <;>
          first
            | rfl
            | omega
            | exact ih bt ct h1 h2

theorem bytesLt_asymm (a b : Bytes) (h : bytesLt a b = true) : bytesLt b a = false := by
  cases h' : bytesLt b a with
  | false => rfl
  | true =>
    have := bytesLt_trans a b a h h'
    rw [bytesLt_irrefl] at this
    exact absurd this (by simp)

theorem bytesLt_ne (a b : Bytes) (h : bytesLt a b = true) : a ≠ b := by
  intro heq
  subst heq
  rw [bytesLt_irrefl] at h
  exact absurd h (by simp)

theorem bytesLt_total (a b : Bytes) (h : a ≠ b) :
    bytesLt a b = true ∨ bytesLt b a = true := by
  induction a generalizing b with
  | nil =>
    cases b with
    | nil => exact absurd rfl h
    | cons bh bt => left; rfl
  | cons ah at' ih =>
    cases b with
    | nil => right; rfl
    | cons bh bt =>
      by_cases hab : ah = bh
      · subst hab
        have hne : at' ≠ bt := by
          intro hteq; exact h (by rw [hteq])
        rcases ih bt hne with h' | h'
        · left; simp [bytesLt, h']
        · right; simp [bytesLt, h']
      · rcases Nat.lt_or_ge ah bh with hlt | hge
        · left; simp [bytesLt, hlt]
        · have hlt : bh < ah := by omega
          right; simp [bytesLt, hlt]

theorem takeBytes_append (l r : Bytes) : takeBytes l.length (l ++ r) = some (l, r) := by
  simp [takeBytes, List.take_left, List.drop_left]

theorem takeBytes_append' (n : Nat) (l r : Bytes) (h : l.length = n) :
    takeBytes n (l ++ r) = some (l, r) := by
  subst h
  exact takeBytes_append l r

theorem takeBytes_exact (n : Nat) (l : Bytes) (h : l.length = n) :
    takeBytes n l = some (l, []) := by
  subst h
  simp [takeBytes]

theorem decodeU32_encodeU32 (n : Nat) (r : Bytes) (h : n < 4294967296) :
    decodeU32 (encodeU32 n ++ r) = some (n, r) := by
  have hn : n % 256 + 256 * (n / 256 % 256) + 65536 * (n / 65536 % 256) +
      16777216 * (n / 16777216 % 256) = n := by omega
  simp [encodeU32, decodeU32, hn]

theorem decodeRelayHeader_encodeRelayHeader (h : RelayChainHeader)
    (hwf : WellFormedRelayHeader h) :
    decodeRelayHeader (encodeRelayHeader h) = some h := by
  obtain ⟨hnum, hdig⟩ := hwf
  obtain ⟨⟨ph, hph⟩, num, ⟨sr, hsr⟩, ⟨er, her⟩, dg⟩ := h
  simp only at hnum hdig
  simp [encodeRelayHeader, decodeRelayHeader, List.append_assoc, takeBytes_append',
    takeBytes_exact, decodeU32_encodeU32, hph, hsr, her, hnum, hdig]

theorem collectEntries_map_entryToRaw (l : List (H256 × ParachainHeaderProofs)) :
    collectEntries (l.map entryToRaw) = .ok l := by
  induction l with
  | nil => rfl
  | cons kv t ih =>
    obtain ⟨⟨k, hk⟩, v⟩ := kv
    simp [collectEntries, entryToRaw, hk, ih]

theorem decodeUnknownHeaders_map_encode (l : List RelayChainHeader)
    (hwf : ∀ hdr ∈ l, WellFormedRelayHeader hdr) :
    decodeUnknownHeaders (l.map encodeRelayHeader) = .ok l := by
  induction l with
  | nil => rfl
  | cons hdr t ih =>
    have h1 := decodeRelayHeader_encodeRelayHeader hdr (hwf hdr (by simp))
    have h2 := ih (fun x hx => hwf x (by simp [hx]))
    simp [decodeUnknownHeaders, h1, h2]

theorem insertSorted_gt_append (k : H256) (v : ParachainHeaderProofs)
    (m : List (H256 × ParachainHeaderProofs))
    (hgt : ∀ kv ∈ m, bytesLt kv.1.val k.val = true) :
    insertSorted k v m = m ++ [(k, v)] := by
  induction m with
  | nil => rfl
  | cons cw t ih =>
    have hc : bytesLt cw.1.val k.val = true := hgt cw (by simp)
    have h1 : bytesLt k.val cw.1.val = false := bytesLt_asymm _ _ hc
    have h2 : k ≠ cw.1 := by
      intro heq
      exact absurd hc (by simp [heq, bytesLt_irrefl])
    obtain ⟨c, w⟩ := cw
    simp only [insertSorted, h1, Bool.false_eq_true, if_false]
    rw [if_neg h2, ih (fun kv hkv => hgt kv (by simp [hkv]))]
    simp

theorem foldl_insertSorted_of_sorted (l acc : List (H256 × ParachainHeaderProofs))
    (hacc : ∀ a ∈ acc, ∀ b ∈ l, bytesLt a.1.val b.1.val = true)
    (hl : SortedKeys l) :
    l.foldl (fun m kv => insertSorted kv.1 kv.2 m) acc = acc ++ l := by
  induction l generalizing acc with
  | nil => simp
  | cons kv t ih =>
    have hstep : insertSorted kv.1 kv.2 acc = acc ++ [kv] :=
      insertSorted_gt_append kv.1 kv.2 acc (fun a ha => hacc a ha kv (by simp))
    have hl' : SortedKeys t := (List.pairwise_cons.mp hl).2
    have hhead : ∀ b ∈ t, bytesLt kv.1.val b.1.val = true :=
      (List.pairwise_cons.mp hl).1
    have hacc' : ∀ a ∈ acc ++ [kv], ∀ b ∈ t, bytesLt a.1.val b.1.val = true := by
      intro a ha b hb
      rcases List.mem_append.mp ha with ha' | ha'
      · exact hacc a ha' b (by simp [hb])
      · simp at ha'
        subst ha'
        exact hhead b hb
    calc (kv :: t).foldl (fun m kv => insertSorted kv.1 kv.2 m) acc
        = t.foldl (fun m kv => insertSorted kv.1 kv.2 m) (acc ++ [kv]) := by
          simp [List.foldl_cons, hstep]
      _ = (acc ++ [kv]) ++ t := ih (acc ++ [kv]) hacc' hl'
      _ = acc ++ kv :: t := by simp

theorem foldl_insertSorted_id (l : List (H256 × ParachainHeaderProofs))
    (hl : SortedKeys l) :
    l.foldl (fun m kv => insertSorted kv.1 kv.2 m) [] = l := by
  have := foldl_insertSorted_of_sorted l [] (by simp) hl
  simpa using this

/-- C2: for every well-formed in-memory `Header` (its `BTreeMap`
representation sorted, its unknown headers encodable by the wire codec),
converting to the wire representation and back succeeds and returns the
same header, all fields equal. -/
theorem lc_header_wire_roundtrip (h : Header)
    (hsort : SortedKeys h.parachain_headers)
    (hwf : ∀ hdr ∈ h.finality_proof.unknown_headers, WellFormedRelayHeader hdr) :
    tryFromRawHeader (fromHeader h) = .ok h := by
  obtain ⟨⟨block, just, uh⟩, phs⟩ := h
  simp only at hsort hwf
  obtain ⟨bl, hbl⟩ := block
  simp [tryFromRawHeader, fromHeader, hbl, collectEntries_map_entryToRaw,
    decodeUnknownHeaders_map_encode uh hwf, foldl_insertSorted_id phs hsort]

/-- Witness for C2 at the concrete header `wHeader`. -/
theorem lc_header_wire_roundtrip_witness :
    tryFromRawHeader (fromHeader wHeader) = .ok wHeader :=
  lc_header_wire_roundtrip wHeader
    (by simp [SortedKeys, wHeader])
    (by decide)

theorem collectEntries_ok_of_valid (l : List RawParachainEntry)
    (hv : ∀ e ∈ l, e.relay_hash.length = 32 ∧ ∃ p, e.parachain_header = some p) :
    ∃ el, collectEntries l = .ok el := by
  induction l with
  | nil => exact ⟨[], rfl⟩
  | cons e t ih =>
    obtain ⟨he, p, hp⟩ := hv e (by simp)
    obtain ⟨el, hel⟩ := ih (fun x hx => hv x (by simp [hx]))
    exact ⟨(⟨e.relay_hash, he⟩, ⟨p.state_proof, p.extrinsic, p.extrinsic_proof⟩) :: el,
      by simp [collectEntries, he, hp, hel]⟩

theorem collectEntries_append (xs ys : List RawParachainEntry) :
    collectEntries (xs ++ ys) =
      match collectEntries xs with
      | .error e => .error e
      | .ok l =>
        match collectEntries ys with
        | .error e => .error e
        | .ok l' => .ok (l ++ l') := by
  induction xs with
  | nil =>
    cases hy : collectEntries ys with
    | error e => simp [collectEntries, hy]
    | ok l' => simp [collectEntries, hy]
  | cons x t ih =>
    by_cases hx : x.relay_hash.length = 32
    · simp only [List.cons_append, collectEntries, dif_pos hx, List.append_eq]
      cases hp : x.parachain_header with
      | none => rfl
      | some p =>
        rw [ih]
        cases ht : collectEntries t with
        | error e => rfl
        | ok l =>
          cases hy : collectEntries ys with
          | error e => rfl
          | ok l' => simp
    · simp only [List.cons_append, collectEntries, dif_neg hx]

/-- C4 as frozen is refuted: this wire header has a parachain entry whose
`relay_hash` has byte length 0 ≠ 32, yet the conversion fails with the
missing-required-field error for the absent finality proof, which reports no
length. -/
theorem lc_hash_length_rejection_cex :
    rawDoublyBad.parachain_headers.map RawParachainEntry.relay_hash = [[]] ∧
    tryFromRawHeader rawDoublyBad = .error .missingFinalityProof ∧
    tryFromRawHeader rawDoublyBad ≠ .error (.invalidHashLength 0) := by
  refine ⟨by decide, by decide, by decide⟩

/-- C4 amended: a wire header with a `block` field of length ≠ 32 fails with
the decode error reporting that length; a wire header whose parachain entry
`e` has a `relay_hash` of length ≠ 32 fails with the decode error reporting
that length provided the fields validated before it are well-formed (the
finality proof is present with a 32-byte `block`, and every entry preceding
`e` passes its own checks). In all cases the error return means no `Header`
value is constructed. -/
theorem lc_hash_length_rejection :
    (∀ (raw : RawHeader) (fp : RawFinalityProof),
      raw.finality_proof = some fp → fp.block.length ≠ 32 →
      tryFromRawHeader raw = .error (.invalidHashLength fp.block.length)) ∧
    (∀ (raw : RawHeader) (fp : RawFinalityProof) (pre : List RawParachainEntry)
      (e : RawParachainEntry) (post : List RawParachainEntry),
      raw.finality_proof = some fp → fp.block.length = 32 →
      raw.parachain_headers = pre ++ e :: post →
      (∀ e' ∈ pre, e'.relay_hash.length = 32 ∧ ∃ p, e'.parachain_header = some p) →
      e.relay_hash.length ≠ 32 →
      tryFromRawHeader raw = .error (.invalidHashLength e.relay_hash.length)) := by
  constructor
  · intro raw fp hfp hlen
    simp [tryFromRawHeader, hfp, hlen]
  · intro raw fp pre e post hfp hb hsplit hpre hlen
    obtain ⟨elpre, helpre⟩ := collectEntries_ok_of_valid pre hpre
    have hcoll : collectEntries raw.parachain_headers =
        .error (.invalidHashLength e.relay_hash.length) := by
      rw [hsplit, collectEntries_append, helpre]
      simp [collectEntries, hlen]
    simp [tryFromRawHeader, hfp, hb, hcoll]

/-- Witness for the amended C4: a 3-byte `block` is rejected reporting
length 3, and a 31-byte `relay_hash` (scenario D) is rejected reporting
length 31. -/
theorem lc_hash_length_rejection_witness :
    tryFromRawHeader rawBadBlock = .error (.invalidHashLength 3) ∧
    tryFromRawHeader rawBadEntry = .error (.invalidHashLength 31) :=
  ⟨lc_hash_length_rejection.1 rawBadBlock
      { block := [1, 2, 3], justification := [], unknown_headers := [] } rfl (by decide),
   lc_hash_length_rejection.2 rawBadEntry
      { block := List.replicate 32 0, justification := [], unknown_headers := [] }
      [] { relay_hash := List.replicate 31 0, parachain_header := some ⟨[], [], []⟩ } []
      rfl (by decide) rfl (by simp) (by decide)⟩

theorem decodeUnknownHeaders_ok_of_valid (l : List Bytes)
    (hv : ∀ b ∈ l, (decodeRelayHeader b).isSome) :
    ∃ hs, decodeUnknownHeaders l = .ok hs := by
  induction l with
  | nil => exact ⟨[], rfl⟩
  | cons b t ih =>
    obtain ⟨hdr, hhdr⟩ := Option.isSome_iff_exists.mp (hv b (by simp))
    obtain ⟨hs, hhs⟩ := ih (fun x hx => hv x (by simp [hx]))
    exact ⟨hdr :: hs, by simp [decodeUnknownHeaders, hhdr, hhs]⟩

theorem collectEntries_valid_of_ok (l : List RawParachainEntry)
    (el : List (H256 × ParachainHeaderProofs)) (hel : collectEntries l = .ok el) :
    ∀ e ∈ l, e.relay_hash.length = 32 ∧ ∃ p, e.parachain_header = some p := by
  induction l generalizing el with
  | nil => simp
  | cons e t ih =>
    by_cases he : e.relay_hash.length = 32
    · simp only [collectEntries, dif_pos he] at hel
      cases hp : e.parachain_header with
      | none => rw [hp] at hel; exact absurd hel (by simp)
      | some p =>
        rw [hp] at hel
        cases ht : collectEntries t with
        | error err => rw [ht] at hel; exact absurd hel (by simp)
        | ok rest =>
          intro x hx
          rcases List.mem_cons.mp hx with hx' | hx'
          · subst hx'; exact ⟨he, p, hp⟩
          · exact ih rest ht x hx'
    · simp only [collectEntries, dif_neg he] at hel
      exact absurd hel (by simp)

theorem lastRaw_mem (s : Bytes) (l : List RawParachainEntry) (x : RawParachainEntry)
    (h : lastRaw s l = some x) : x ∈ l ∧ x.relay_hash = s := by
  induction l with
  | nil => simp [lastRaw] at h
  | cons e t ih =>
    simp only [lastRaw] at h
    cases ht : lastRaw s t with
    | some y =>
      rw [ht] at h
      cases h
      obtain ⟨hm, hs⟩ := ih ht
      exact ⟨by simp [hm], hs⟩
    | none =>
      rw [ht] at h
      by_cases he : e.relay_hash = s
      · rw [if_pos he] at h
        cases h
        exact ⟨by simp, he⟩
      · rw [if_neg he] at h
        exact absurd h (by simp)

theorem lastRaw_append (s : Bytes) (xs ys : List RawParachainEntry) :
    lastRaw s (xs ++ ys) =
      match lastRaw s ys with
      | some x => some x
      | none => lastRaw s xs := by
  induction xs with
  | nil =>
    simp only [List.nil_append]
    cases h : lastRaw s ys <;> simp [h, lastRaw]
  | cons e t ih =>
    simp only [List.cons_append, lastRaw, List.append_eq]
    rw [ih]
    cases h1 : lastRaw s ys <;> cases h2 : lastRaw s t <;> simp [lastRaw, h1, h2]

theorem lastRaw_none (s : Bytes) (l : List RawParachainEntry)
    (h : ∀ e ∈ l, e.relay_hash ≠ s) : lastRaw s l = none := by
  induction l with
  | nil => rfl
  | cons e t ih =>
    simp only [lastRaw, ih (fun x hx => h x (by simp [hx]))]
    rw [if_neg (h e (by simp))]

theorem collectEntries_lastVal (l : List RawParachainEntry)
    (el : List (H256 × ParachainHeaderProofs)) (hel : collectEntries l = .ok el)
    (k : H256) :
    lastVal k el = (lastRaw k.val l).bind (fun e => e.parachain_header.map
      (fun p => (⟨p.state_proof, p.extrinsic, p.extrinsic_proof⟩ : ParachainHeaderProofs))) := by
  induction l generalizing el with
  | nil =>
    simp only [collectEntries] at hel
    cases hel
    simp [lastVal, lastRaw]
  | cons e t ih =>
    by_cases he : e.relay_hash.length = 32
    · simp only [collectEntries, dif_pos he] at hel
      cases hp : e.parachain_header with
      | none => rw [hp] at hel; exact absurd hel (by simp)
      | some p =>
        rw [hp] at hel
        cases ht : collectEntries t with
        | error err => rw [ht] at hel; exact absurd hel (by simp)
        | ok rest =>
          rw [ht] at hel
          cases hel
          simp only [lastVal, lastRaw, ih rest ht]
          cases hlr : lastRaw k.val t with
          | some x =>
            obtain ⟨hx_mem, _⟩ := lastRaw_mem _ _ _ hlr
            obtain ⟨_, px, hpx⟩ := collectEntries_valid_of_ok t rest ht x hx_mem
            simp [hpx]
          | none =>
            by_cases hq : e.relay_hash = k.val
            · have : (⟨e.relay_hash, he⟩ : H256) = k := Subtype.ext hq
              simp [this, hq, hp]
            · have : (⟨e.relay_hash, he⟩ : H256) ≠ k := by
                intro hk
                exact hq (congrArg Subtype.val hk)
              simp [this, hq]
    · simp only [collectEntries, dif_neg he] at hel
      exact absurd hel (by simp)

theorem lookupKey_insertSorted (k q : H256) (v : ParachainHeaderProofs)
    (m : List (H256 × ParachainHeaderProofs)) :
    lookupKey q (insertSorted k v m) = if q = k then some v else lookupKey q m := by
  induction m with
  | nil =>
    simp [insertSorted, lookupKey]
  | cons cw t ih =>
    obtain ⟨c, w⟩ := cw
    simp only [insertSorted]
    by_cases h1 : bytesLt k.val c.val = true
    · rw [if_pos h1]
      simp [lookupKey]
    · rw [if_neg h1]
      by_cases h2 : k = c
      · subst h2
        rw [if_pos rfl]
        simp only [lookupKey]
        by_cases hq : q = k
        · simp [hq]
        · simp [hq]
      · rw [if_neg h2]
        simp only [lookupKey]
        rw [ih]
        by_cases hq : q = c
        · have hqk : q ≠ k := by
            intro h
            exact h2 (by rw [← h, hq])
          simp [hq, hqk, Ne.symm h2]
        · simp [hq]

theorem lookupKey_foldl_insertSorted (k : H256)
    (l init : List (H256 × ParachainHeaderProofs)) :
    lookupKey k (l.foldl (fun m kv => insertSorted kv.1 kv.2 m) init) =
      match lastVal k l with
      | some v => some v
      | none => lookupKey k init := by
  induction l generalizing init with
  | nil => simp [lastVal]
  | cons kv t ih =>
    rw [List.foldl_cons, ih]
    simp only [lastVal]
    cases lastVal k t with
    | some v => rfl
    | none =>
      rw [lookupKey_insertSorted]
      by_cases hq : k = kv.1
      · simp [hq]
      · have : kv.1 ≠ k := fun h => hq h.symm
        simp [hq, this]

theorem insertSorted_mem (k : H256) (v : ParachainHeaderProofs)
    (m : List (H256 × ParachainHeaderProofs)) (x : H256 × ParachainHeaderProofs)
    (hx : x ∈ insertSorted k v m) : x = (k, v) ∨ x ∈ m := by
  induction m with
  | nil => simp [insertSorted] at hx; simp [hx]
  | cons cw t ih =>
    simp only [insertSorted] at hx
    by_cases h1 : bytesLt k.val cw.1.val
    · simp only [h1, if_true] at hx
      rcases List.mem_cons.mp hx with h | h
      · exact Or.inl h
      · exact Or.inr h
    · simp only [h1, Bool.false_eq_true, if_false] at hx
      by_cases h2 : k = cw.1
      · rw [if_pos h2] at hx
        rcases List.mem_cons.mp hx with h | h
        · exact Or.inl h
        · exact Or.inr (by simp [h])
      · rw [if_neg h2] at hx
        rcases List.mem_cons.mp hx with h | h
        · exact Or.inr (by simp [h])
        · rcases ih h with h' | h'
          · exact Or.inl h'
          · exact Or.inr (by simp [h'])

theorem SortedKeys_insertSorted (k : H256) (v : ParachainHeaderProofs)
    (m : List (H256 × ParachainHeaderProofs)) (hm : SortedKeys m) :
    SortedKeys (insertSorted k v m) := by
  induction m with
  | nil => simp [insertSorted, SortedKeys]
  | cons cw t ih =>
    obtain ⟨hhead, htail⟩ := List.pairwise_cons.mp hm
    simp only [insertSorted]
    by_cases h1 : bytesLt k.val cw.1.val
    · simp only [h1, if_true]
      refine List.pairwise_cons.mpr ⟨?_, hm⟩
      intro b hb
      rcases List.mem_cons.mp hb with h | h
      · rw [h]; exact h1
      · exact bytesLt_trans _ _ _ h1 (hhead b h)
    · simp only [h1, Bool.false_eq_true, if_false]
      by_cases h2 : k = cw.1
      · rw [if_pos h2, h2]
        exact List.pairwise_cons.mpr ⟨hhead, htail⟩
      · rw [if_neg h2]
        refine List.pairwise_cons.mpr ⟨?_, ih htail⟩
        intro b hb
        rcases insertSorted_mem k v t b hb with h | h
        · rw [h]
          rcases bytesLt_total k.val cw.1.val (fun hv => h2 (Subtype.ext hv)) with h' | h'
          · exact absurd h' (by simp [h1])
          · exact h'
        · exact hhead b h

theorem SortedKeys_foldl (l init : List (H256 × ParachainHeaderProofs))
    (hinit : SortedKeys init) :
    SortedKeys (l.foldl (fun m kv => insertSorted kv.1 kv.2 m) init) := by
  induction l generalizing init with
  | nil => simpa
  | cons kv t ih =>
    rw [List.foldl_cons]
    exact ih _ (SortedKeys_insertSorted kv.1 kv.2 init hinit)

theorem SortedKeys_nodup_keys (m : List (H256 × ParachainHeaderProofs))
    (hm : SortedKeys m) : (m.map (fun kv => kv.1.val)).Nodup :=
  List.Pairwise.map _ (fun _ _ hab => bytesLt_ne _ _ hab) hm

/-- C10: a wire header with two entries sharing a relay hash (the second
one being the last entry of that hash in wire order) still converts
successfully, the resulting map binds that hash to the proofs of the later
entry, and converting the result back to the wire form does not reproduce
the original wire header. -/
theorem lc_duplicate_relay_hash_last_wins
    (raw : RawHeader) (pre mid post : List RawParachainEntry)
    (e1 e2 : RawParachainEntry) (p2 : RawParachainHeaderProofs)
    (hconv : RawConvertible raw)
    (hsplit : raw.parachain_headers = pre ++ e1 :: mid ++ e2 :: post)
    (hdup : e1.relay_hash = e2.relay_hash)
    (hp2 : e2.parachain_header = some p2)
    (hlast : ∀ e ∈ post, e.relay_hash ≠ e2.relay_hash) :
    ∃ (h : Header) (k : H256), tryFromRawHeader raw = .ok h ∧
      k.val = e2.relay_hash ∧
      lookupKey k h.parachain_headers =
        some ⟨p2.state_proof, p2.extrinsic, p2.extrinsic_proof⟩ ∧
      fromHeader h ≠ raw := by
  obtain ⟨⟨fp, hfp, hb, huhv⟩, hent⟩ := hconv
  obtain ⟨el, hel⟩ := collectEntries_ok_of_valid raw.parachain_headers hent
  obtain ⟨uh, huh⟩ := decodeUnknownHeaders_ok_of_valid fp.unknown_headers huhv
  have he2mem : e2 ∈ raw.parachain_headers := by rw [hsplit]; simp
  obtain ⟨hlen2, -⟩ := hent e2 he2mem
  have hok : tryFromRawHeader raw =
      .ok { finality_proof :=
              { block := ⟨fp.block, hb⟩
                justification := fp.justification
                unknown_headers := uh }
            parachain_headers := el.foldl (fun m kv => insertSorted kv.1 kv.2 m) [] } := by
    simp [tryFromRawHeader, hfp, hb, hel, huh]
  refine ⟨_, ⟨e2.relay_hash, hlen2⟩, hok, rfl, ?_, ?_⟩
  · have hpost : lastRaw e2.relay_hash post = none :=
      lastRaw_none _ _ (fun e he => hlast e he)
    have h1 : lastRaw e2.relay_hash (e2 :: post) = some e2 := by
      simp [lastRaw, hpost]
    have hlr : lastRaw e2.relay_hash raw.parachain_headers = some e2 := by
      rw [hsplit, lastRaw_append, h1]
    have hlv := collectEntries_lastVal raw.parachain_headers el hel ⟨e2.relay_hash, hlen2⟩
    rw [hlr] at hlv
    simp [hp2] at hlv
    rw [lookupKey_foldl_insertSorted, hlv]
  · intro heq
    have hnd : (raw.parachain_headers.map RawParachainEntry.relay_hash).Nodup := by
      rw [← heq]
      simp only [fromHeader]
      rw [List.map_map]
      have hcomp : (RawParachainEntry.relay_hash ∘ entryToRaw) =
          fun kv : H256 × ParachainHeaderProofs => kv.1.val := rfl
      rw [hcomp]
      exact SortedKeys_nodup_keys _ (SortedKeys_foldl el [] (by simp [SortedKeys]))
    rw [hsplit] at hnd
    simp only [List.map_append, List.map_cons] at hnd
    obtain ⟨-, -, hdisj⟩ := List.nodup_append.mp hnd
    refine hdisj ?_ (List.mem_cons_self _ _)
    rw [← hdup]
    exact List.mem_append.mpr (Or.inr (List.mem_cons_self _ _))

/-- Witness for C10 at the concrete duplicated wire header `rawDup`. -/
theorem lc_duplicate_relay_hash_last_wins_witness :
    ∃ (h : Header) (k : H256), tryFromRawHeader rawDup = .ok h ∧
      k.val = List.replicate 32 5 ∧
      lookupKey k h.parachain_headers = some ⟨[[2]], [2], []⟩ ∧
      fromHeader h ≠ rawDup :=
  lc_duplicate_relay_hash_last_wins rawDup [] [] []
    { relay_hash := List.replicate 32 5, parachain_header := some ⟨[[1]], [1], []⟩ }
    { relay_hash := List.replicate 32 5, parachain_header := some ⟨[[2]], [2], []⟩ }
    ⟨[[2]], [2], []⟩
    ⟨⟨{ block := List.replicate 32 0, justification := [], unknown_headers := [] },
        rfl, by decide, by simp⟩,
      by
        intro e he
        simp [rawDup] at he
        rcases he with h | h
        · subst h
          exact ⟨by decide, ⟨[[1]], [1], []⟩, rfl⟩
        · subst h
          exact ⟨by decide, ⟨[[2]], [2], []⟩, rfl⟩⟩
    rfl rfl rfl (by simp)

end GrandpaLC

namespace GrandpaProver

theorem walkFrom_ok_linksFrom (api : ChainApi) (fuel c prev : Nat) (l : List RelayHeader)
    (h : walkFrom api fuel c prev = .ok l) : linksFrom api prev c l := by
  induction fuel generalizing c l with
  | zero => simp [walkFrom] at h
  | succ fuel ih =>
    simp only [walkFrom] at h
    by_cases hc : c = prev
    · rw [if_pos hc] at h
      simp only [PRes.ok.injEq] at h
      subst h
      simpa [linksFrom] using hc
    · rw [if_neg hc] at h
      cases hh : api.header c with
      | none => rw [hh] at h; simp at h
      | some hdr =>
        rw [hh] at h
        dsimp only at h
        cases hw : walkFrom api fuel hdr.parent_hash prev with
        | ok rest =>
          rw [hw] at h
          simp only [PRes.ok.injEq] at h
          subst h
          exact ⟨hh, ih _ _ hw⟩
        | err e => rw [hw] at h; simp at h
        | panicked m => rw [hw] at h; simp at h

theorem linksFrom_chain (api : ChainApi) (prev c : Nat) (l : List RelayHeader)
    (hhon : HeaderFetchHonest api) (h : linksFrom api prev c l) :
    List.Chain' (fun a b => a.parent_hash = api.headerHash b) l ∧
    (∀ lastH, l.getLast? = some lastH → lastH.parent_hash = prev) := by
  induction l generalizing c with
  | nil => exact ⟨List.chain'_nil, by simp⟩
  | cons hdr t ih =>
    obtain ⟨hc, hrest⟩ := h
    obtain ⟨ihc, ihl⟩ := ih hdr.parent_hash hrest
    constructor
    · cases t with
      | nil => exact List.chain'_singleton _
      | cons b t' =>
        obtain ⟨hb, -⟩ := hrest
        exact List.chain'_cons.mpr ⟨(hhon _ _ hb).symm, ihc⟩
    · intro lastH hl
      cases t with
      | nil =>
        simp at hl
        subst hl
        exact hrest
      | cons b t' =>
        exact ihl lastH (by simpa [List.getLast?_cons_cons] using hl)

theorem query_with_proof_ok_elim (api : ChainApi) (fuel latest previous : Nat)
    (header_numbers : List Nat) (res : ParachainHeadersWithFinalityProof)
    (hok : query_finalized_parachain_headers_with_proof api fuel latest previous
      header_numbers = .ok res) :
    ∃ hdr enc fp tail changes phs,
      api.header latest = some hdr ∧
      api.proveFinality hdr.number = some enc ∧
      api.decodeFinalityProof enc = some fp ∧
      walkFrom api fuel hdr.parent_hash previous = .ok tail ∧
      api.queryStorage previous latest = some changes ∧
      processChanges api header_numbers changes [] = .ok phs ∧
      res = { finality_proof :=
                { block := fp.block
                  justification := fp.justification
                  unknown_headers := hdr :: tail }
              parachain_headers := phs } := by
  unfold query_finalized_parachain_headers_with_proof at hok
  cases hh : api.header latest with
  | none => rw [hh] at hok; simp at hok
  | some hdr =>
    rw [hh] at hok
    dsimp only at hok
    cases hpf : api.proveFinality hdr.number with
    | none => rw [hpf] at hok; simp at hok
    | some enc =>
      rw [hpf] at hok
      dsimp only at hok
      cases hdec : api.decodeFinalityProof enc with
      | none => rw [hdec] at hok; simp at hok
      | some fp =>
        rw [hdec] at hok
        dsimp only at hok
        cases hw : walkFrom api fuel hdr.parent_hash previous with
        | err e => rw [hw] at hok; simp at hok
        | panicked m => rw [hw] at hok; simp at hok
        | ok tail =>
          rw [hw] at hok
          dsimp only at hok
          cases hqs : api.queryStorage previous latest with
          | none => rw [hqs] at hok; simp at hok
          | some changes =>
            rw [hqs] at hok
            dsimp only at hok
            cases hpc : processChanges api header_numbers changes [] with
            | err e => rw [hpc] at hok; simp at hok
            | panicked m => rw [hpc] at hok; simp at hok
            | ok phs =>
              rw [hpc] at hok
              dsimp only at hok
              simp only [PRes.ok.injEq] at hok
              exact ⟨hdr, enc, fp, tail, changes, phs, rfl, hpf, hdec, hw, rfl, hpc,
                hok.symm⟩

/-- C1: under the facade contract that header lookup returns a header hashing
to the queried hash, every successfully produced bundle has contiguous
`unknown_headers`: each entry's `parent_hash` is the hash of the next entry,
and the last entry's `parent_hash` is the supplied
`previous_finalized_hash`. -/
theorem prover_unknown_headers_contiguous (api : ChainApi) (fuel latest previous : Nat)
    (header_numbers : List Nat) (res : ParachainHeadersWithFinalityProof)
    (hhon : HeaderFetchHonest api)
    (hok : query_finalized_parachain_headers_with_proof api fuel latest previous
      header_numbers = .ok res) :
    List.Chain' (fun a b => a.parent_hash = api.headerHash b)
      res.finality_proof.unknown_headers ∧
    res.finality_proof.unknown_headers.getLast?.map RelayHeader.parent_hash =
      some previous := by
  obtain ⟨hdr, enc, fp, tail, changes, phs, hh, hpf, hdec, hw, hqs, hpc, hres⟩ :=
    query_with_proof_ok_elim api fuel latest previous header_numbers res hok
  subst hres
  have hlinks : linksFrom api previous latest (hdr :: tail) :=
    ⟨hh, walkFrom_ok_linksFrom api fuel _ _ _ hw⟩
  obtain ⟨hchain, hlast⟩ := linksFrom_chain api previous latest _ hhon hlinks
  refine ⟨hchain, ?_⟩
  cases hgl : (hdr :: tail).getLast? with
  | none => simp at hgl
  | some lastH => simp [hlast lastH hgl]

/-- Witness for C1 at the concrete facade `wApi`. -/
theorem prover_unknown_headers_contiguous_witness :
    List.Chain' (fun a b => a.parent_hash = wApi.headerHash b)
      wRes.finality_proof.unknown_headers ∧
    wRes.finality_proof.unknown_headers.getLast?.map RelayHeader.parent_hash =
      some 1 :=
  prover_unknown_headers_contiguous wApi 10 3 1 [5] wRes
    (by
      intro h hdr hh
      simp only [wApi] at hh ⊢
      split_ifs at hh with h1 h2 h3 <;>
        simp only [Option.some.injEq, reduceCtorEq] at hh <;>
        (subst hh; simp; omega))
    (by decide)

/-- C7: the first element of `unknown_headers` is exactly the header fetched
at `latest_finalized_hash`; under the facade contract that the justification
returned for that header's number proves that header's own hash, its hash is
the finality proof's `block` field. -/
theorem prover_first_unknown_header (api : ChainApi) (fuel latest previous : Nat)
    (header_numbers : List Nat) (res : ParachainHeadersWithFinalityProof)
    (hjust : ∀ hdr enc fp, api.header latest = some hdr →
      api.proveFinality hdr.number = some enc →
      api.decodeFinalityProof enc = some fp → fp.block = api.headerHash hdr)
    (hok : query_finalized_parachain_headers_with_proof api fuel latest previous
      header_numbers = .ok res) :
    ∃ hdr, api.header latest = some hdr ∧
      res.finality_proof.unknown_headers.head? = some hdr ∧
      api.headerHash hdr = res.finality_proof.block := by
  obtain ⟨hdr, enc, fp, tail, changes, phs, hh, hpf, hdec, hw, hqs, hpc, hres⟩ :=
    query_with_proof_ok_elim api fuel latest previous header_numbers res hok
  subst hres
  exact ⟨hdr, hh, by simp, (hjust hdr enc fp hh hpf hdec).symm⟩

/-- Witness for C7 at the concrete facade `wApi`. -/
theorem prover_first_unknown_header_witness :
    ∃ hdr, wApi.header 3 = some hdr ∧
      wRes.finality_proof.unknown_headers.head? = some hdr ∧
      wApi.headerHash hdr = wRes.finality_proof.block :=
  prover_first_unknown_header wApi 10 3 1 [5] wRes
    (by
      intro hdr enc fp h1 h2 h3
      have h1' : some (⟨3, 2⟩ : RelayHeader) = some hdr := h1
      cases h1'
      have h2' : some [7] = some enc := h2
      cases h2'
      have h3' : some (⟨3, [9], []⟩ : FinalityProof) = some fp := h3
      cases h3'
      rfl)
    (by decide)

/-- C3 as frozen is refuted: the ancestor walk reports an unreachable
`previous_finalized_hash` with the same generic header-lookup error value
that a pruned genuine ancestor produces — the error type of the prover has
no distinct chain-discontinuity variant. With `wApi`, previous hash 99 is on
no ancestor path of block 3, and the walk falls off the chain at the genesis
parent 0; with `prunedApi`, hash 1 is a genuine ancestor of block 3 but
block 2 was pruned from the facade: both fail with `headerWithHashNotFound`. -/
theorem prover_chain_discontinuity_cex :
    query_finalized_parachain_headers_with_proof wApi 10 3 99 [5] =
      .err (.headerWithHashNotFound 0) ∧
    query_finalized_parachain_headers_with_proof prunedApi 10 3 1 [] =
      .err (.headerWithHashNotFound 2) :=
  ⟨by decide, by decide⟩

/-- C3 amended: when the backward walk hits a hash whose header the facade
cannot produce before reaching `previous_finalized_hash` — in particular
whenever `previous_finalized_hash` is not on the ancestor path — the whole
call fails with the generic `headerWithHashNotFound` lookup error carrying
that hash (not a dedicated discontinuity error). -/
theorem prover_walk_failure_generic (api : ChainApi) (fuel latest previous : Nat)
    (header_numbers : List Nat) (hdr0 : RelayHeader) (enc : List Nat)
    (fp : FinalityProof) (h : Nat)
    (h1 : api.header latest = some hdr0)
    (h2 : api.proveFinality hdr0.number = some enc)
    (h3 : api.decodeFinalityProof enc = some fp)
    (h4 : walkFrom api fuel hdr0.parent_hash previous = .err (.headerWithHashNotFound h)) :
    query_finalized_parachain_headers_with_proof api fuel latest previous header_numbers =
      .err (.headerWithHashNotFound h) := by
  unfold query_finalized_parachain_headers_with_proof
  rw [h1]
  dsimp only
  rw [h2]
  dsimp only
  rw [h3]
  dsimp only
  rw [h4]

/-- Witness for the amended C3: requesting previous hash 99 (not an ancestor
of block 3) fails with the generic lookup error at the genesis parent 0. -/
theorem prover_walk_failure_generic_witness :
    query_finalized_parachain_headers_with_proof wApi 10 3 99 [5] =
      .err (.headerWithHashNotFound 0) :=
  prover_walk_failure_generic wApi 10 3 99 [5] ⟨3, 2⟩ [7] ⟨3, [9], []⟩ 0
    (by decide) (by decide) (by decide) (by decide)

end GrandpaProver

namespace GrandpaProver

theorem insertSortedNat_mem (k : Nat) (v : ParachainHeaderProofs)
    (m : List (Nat × ParachainHeaderProofs)) (x : Nat × ParachainHeaderProofs)
    (hx : x ∈ insertSortedNat k v m) : x = (k, v) ∨ x ∈ m := by
  induction m with
  | nil =>
    simp [insertSortedNat] at hx
    simp [hx]
  | cons cw t ih =>
    obtain ⟨c, w⟩ := cw
    simp only [insertSortedNat] at hx
    by_cases h1 : k < c
    · rw [if_pos h1] at hx
      rcases List.mem_cons.mp hx with h | h
      · exact Or.inl h
      · exact Or.inr h
    · rw [if_neg h1] at hx
      by_cases h2 : k = c
      · rw [if_pos h2] at hx
        rcases List.mem_cons.mp hx with h | h
        · exact Or.inl h
        · exact Or.inr (by simp [h])
      · rw [if_neg h2] at hx
        rcases List.mem_cons.mp hx with h | h
        · exact Or.inr (by simp [h])
        · rcases ih h with h' | h'
          · exact Or.inl h'
          · exact Or.inr (by simp [h'])

theorem processChanges_ok_mem (api : ChainApi) (hn : List Nat) (changes : List Nat)
    (m m' : List (Nat × ParachainHeaderProofs))
    (hok : processChanges api hn changes m = .ok m') :
    ∀ kv ∈ m', kv ∈ m ∨ ∃ b ∈ changes, ∃ hdr bytes p,
      api.header b = some hdr ∧ kv.1 = api.headerHash hdr ∧
      api.parasHeads (api.headerHash hdr) = some bytes ∧
      api.decodeParaHeader bytes = some p ∧
      p.number ≠ 0 ∧ p.number ∈ hn := by
  induction changes generalizing m with
  | nil =>
    simp only [processChanges, PRes.ok.injEq] at hok
    subst hok
    intro kv hkv
    exact Or.inl hkv
  | cons b rest ih =>
    simp only [processChanges] at hok
    cases hh : api.header b with
    | none => rw [hh] at hok; simp at hok
    | some hdr =>
      rw [hh] at hok
      dsimp only at hok
      cases hph : api.parasHeads (api.headerHash hdr) with
      | none => rw [hph] at hok; simp at hok
      | some bytes =>
        rw [hph] at hok
        dsimp only at hok
        cases hdp : api.decodeParaHeader bytes with
        | none => rw [hdp] at hok; simp at hok
        | some p =>
          rw [hdp] at hok
          dsimp only at hok
          by_cases hskip : p.number = 0 ∨ ¬ p.number ∈ hn
          · rw [if_pos hskip] at hok
            intro kv hkv
            rcases ih m hok kv hkv with hin | ⟨b', hb', rest'⟩
            · exact Or.inl hin
            · exact Or.inr ⟨b', by simp [hb'], rest'⟩
          · rw [if_neg hskip] at hok
            push_neg at hskip
            cases hrp : api.readProof (api.headerHash hdr) with
            | none => rw [hrp] at hok; simp at hok
            | some sp =>
              rw [hrp] at hok
              dsimp only at hok
              cases hts : api.fetchTimestampExtProof p.hash with
              | none => rw [hts] at hok; simp at hok
              | some ep =>
                obtain ⟨ext, extp⟩ := ep
                rw [hts] at hok
                dsimp only at hok
                intro kv hkv
                rcases ih _ hok kv hkv with hin | ⟨b', hb', rest'⟩
                · rcases insertSortedNat_mem _ _ _ _ hin with heq | hin'
                  · refine Or.inr ⟨b, by simp, hdr, bytes, p, hh, ?_, hph, hdp,
                      hskip.1, hskip.2⟩
                    rw [heq]
                  · exact Or.inl hin'
                · exact Or.inr ⟨b', by simp [hb'], rest'⟩

theorem betweenLoop_forall₂ (api : ChainApi) (changes : List Nat) (l : List ParaHeader)
    (h : betweenLoop api changes = .ok l) :
    List.Forall₂ (fun b p => ∃ hdr bytes, api.header b = some hdr ∧
      api.parasHeads (api.headerHash hdr) = some bytes ∧
      api.decodeParaHeader bytes = some p) changes l := by
  induction changes generalizing l with
  | nil =>
    simp only [betweenLoop, PRes.ok.injEq] at h
    subst h
    exact List.Forall₂.nil
  | cons b rest ih =>
    simp only [betweenLoop] at h
    cases hh : api.header b with
    | none => rw [hh] at h; simp at h
    | some hdr =>
      rw [hh] at h
      dsimp only at h
      cases hph : api.parasHeads (api.headerHash hdr) with
      | none => rw [hph] at h; simp at h
      | some bytes =>
        rw [hph] at h
        dsimp only at h
        cases hdp : api.decodeParaHeader bytes with
        | none => rw [hdp] at h; simp at h
        | some p =>
          rw [hdp] at h
          dsimp only at h
          cases hbl : betweenLoop api rest with
          | ok l' =>
            rw [hbl] at h
            simp only [PRes.ok.injEq] at h
            subst h
            exact List.Forall₂.cons ⟨hdr, bytes, hh, hph, hdp⟩ (ih l' hbl)
          | err e => rw [hbl] at h; simp at h
          | panicked msg => rw [hbl] at h; simp at h

theorem betweenLoop_append_panic (api : ChainApi) (xs ys : List Nat)
    (done : List ParaHeader) (msg : String)
    (h1 : betweenLoop api xs = .ok done)
    (h2 : betweenLoop api ys = .panicked msg) :
    betweenLoop api (xs ++ ys) = .panicked msg := by
  induction xs generalizing done with
  | nil => simpa using h2
  | cons b t ih =>
    simp only [betweenLoop] at h1
    simp only [List.cons_append, betweenLoop, List.append_eq]
    cases hh : api.header b with
    | none => rw [hh] at h1; simp at h1
    | some hdr =>
      rw [hh] at h1
      dsimp only at h1 ⊢
      cases hph : api.parasHeads (api.headerHash hdr) with
      | none => rw [hph] at h1; simp at h1
      | some bytes =>
        rw [hph] at h1
        dsimp only at h1 ⊢
        cases hdp : api.decodeParaHeader bytes with
        | none => rw [hdp] at h1; simp at h1
        | some p =>
          rw [hdp] at h1
          dsimp only at h1 ⊢
          cases hbl : betweenLoop api t with
          | ok l' =>
            rw [hbl] at h1
            rw [ih l' hbl]
          | err e => rw [hbl] at h1; simp at h1
          | panicked m2 => rw [hbl] at h1; simp at h1

theorem processChanges_append_panic (api : ChainApi) (hn : List Nat) (xs ys : List Nat)
    (m m' : List (Nat × ParachainHeaderProofs)) (msg : String)
    (h1 : processChanges api hn xs m = .ok m')
    (h2 : processChanges api hn ys m' = .panicked msg) :
    processChanges api hn (xs ++ ys) m = .panicked msg := by
  induction xs generalizing m with
  | nil =>
    simp only [processChanges, PRes.ok.injEq] at h1
    subst h1
    simpa using h2
  | cons b t ih =>
    simp only [processChanges] at h1
    simp only [List.cons_append, processChanges, List.append_eq]
    cases hh : api.header b with
    | none => rw [hh] at h1; simp at h1
    | some hdr =>
      rw [hh] at h1
      dsimp only at h1 ⊢
      cases hph : api.parasHeads (api.headerHash hdr) with
      | none => rw [hph] at h1; simp at h1
      | some bytes =>
        rw [hph] at h1
        dsimp only at h1 ⊢
        cases hdp : api.decodeParaHeader bytes with
        | none => rw [hdp] at h1; simp at h1
        | some p =>
          rw [hdp] at h1
          dsimp only at h1 ⊢
          by_cases hskip : p.number = 0 ∨ ¬ p.number ∈ hn
          · rw [if_pos hskip] at h1 ⊢
            exact ih m h1
          · rw [if_neg hskip] at h1 ⊢
            cases hrp : api.readProof (api.headerHash hdr) with
            | none => rw [hrp] at h1; simp at h1
            | some sp =>
              rw [hrp] at h1
              dsimp only at h1 ⊢
              cases hts : api.fetchTimestampExtProof p.hash with
              | none => rw [hts] at h1; simp at h1
              | some ep =>
                obtain ⟨ext, extp⟩ := ep
                rw [hts] at h1
                dsimp only at h1 ⊢
                exact ih _ h1

/-- C5: every entry of the `parachain_headers` map of a successful bundle
comes from a parachain head whose decoded header number is nonzero — the
genesis header is always filtered out. -/
theorem prover_genesis_filter (api : ChainApi) (fuel latest previous : Nat)
    (header_numbers : List Nat) (res : ParachainHeadersWithFinalityProof)
    (hok : query_finalized_parachain_headers_with_proof api fuel latest previous
      header_numbers = .ok res) :
    ∀ kv ∈ res.parachain_headers, ∃ bytes p,
      api.parasHeads kv.1 = some bytes ∧ api.decodeParaHeader bytes = some p ∧
      p.number ≠ 0 := by
  obtain ⟨hdr, enc, fp, tail, changes, phs, hh, hpf, hdec, hw, hqs, hpc, hres⟩ :=
    query_with_proof_ok_elim api fuel latest previous header_numbers res hok
  subst hres
  intro kv hkv
  rcases processChanges_ok_mem api header_numbers changes [] phs hpc kv hkv with
    hin | ⟨b, hb, hdr', bytes, p, hh', hkv1, hph, hdp, hnz, hmem⟩
  · simp at hin
  · exact ⟨bytes, p, by rw [hkv1]; exact hph, hdp, hnz⟩

/-- Witness for C5 at the concrete facade `wApi` and the concrete map entry
keyed by relay hash 2. -/
theorem prover_genesis_filter_witness :
    ∃ bytes p, wApi.parasHeads 2 = some bytes ∧
      wApi.decodeParaHeader bytes = some p ∧ p.number ≠ 0 :=
  prover_genesis_filter wApi 10 3 1 [5] wRes (by decide)
    (2, ⟨[[4]], [2], [[3]]⟩) (by decide)

/-- C6: every key of the `parachain_headers` map of a successful bundle is
the hash of a relay block reported by the storage-change scan whose committed
parachain header number is one of the requested `header_numbers`. -/
theorem prover_target_filter (api : ChainApi) (fuel latest previous : Nat)
    (header_numbers : List Nat) (res : ParachainHeadersWithFinalityProof)
    (hok : query_finalized_parachain_headers_with_proof api fuel latest previous
      header_numbers = .ok res) :
    ∀ kv ∈ res.parachain_headers, ∃ changes,
      api.queryStorage previous latest = some changes ∧
      ∃ b ∈ changes, ∃ hdr bytes p,
        api.header b = some hdr ∧ kv.1 = api.headerHash hdr ∧
        api.parasHeads kv.1 = some bytes ∧ api.decodeParaHeader bytes = some p ∧
        p.number ∈ header_numbers := by
  obtain ⟨hdr, enc, fp, tail, changes, phs, hh, hpf, hdec, hw, hqs, hpc, hres⟩ :=
    query_with_proof_ok_elim api fuel latest previous header_numbers res hok
  subst hres
  intro kv hkv
  rcases processChanges_ok_mem api header_numbers changes [] phs hpc kv hkv with
    hin | ⟨b, hb, hdr', bytes, p, hh', hkv1, hph, hdp, hnz, hmem⟩
  · simp at hin
  · exact ⟨changes, hqs, b, hb, hdr', bytes, p, hh', hkv1,
      by rw [hkv1]; exact hph, hdp, hmem⟩

/-- Witness for C6 at the concrete facade `wApi` and the concrete map entry
keyed by relay hash 2. -/
theorem prover_target_filter_witness :
    ∃ changes, wApi.queryStorage 1 3 = some changes ∧
      ∃ b ∈ changes, ∃ hdr bytes p,
        wApi.header b = some hdr ∧ (2 : Nat) = wApi.headerHash hdr ∧
        wApi.parasHeads 2 = some bytes ∧ wApi.decodeParaHeader bytes = some p ∧
        p.number ∈ [5] :=
  prover_target_filter wApi 10 3 1 [5] wRes (by decide)
    (2, ⟨[[4]], [2], [[3]]⟩) (by decide)

/-- C8: a successful headers-between call returns exactly the decoded
parachain headers for the blocks reported by the storage-change query, one
per reported block, in the reported order. -/
theorem prover_headers_between_exact (api : ChainApi) (latest previous : Nat)
    (l : List ParaHeader)
    (hok : query_finalized_parachain_headers_between api latest previous = .ok l) :
    ∃ changes, api.queryStorage previous latest = some changes ∧
      List.Forall₂ (fun b p => ∃ hdr bytes, api.header b = some hdr ∧
        api.parasHeads (api.headerHash hdr) = some bytes ∧
        api.decodeParaHeader bytes = some p) changes l := by
  unfold query_finalized_parachain_headers_between at hok
  cases hqs : api.queryStorage previous latest with
  | none => rw [hqs] at hok; simp at hok
  | some changes =>
    rw [hqs] at hok
    dsimp only at hok
    exact ⟨changes, rfl, betweenLoop_forall₂ api changes l hok⟩

/-- Witness for C8 at the concrete facade `wApi`. -/
theorem prover_headers_between_exact_witness :
    ∃ changes, wApi.queryStorage 1 3 = some changes ∧
      List.Forall₂ (fun b p => ∃ hdr bytes, wApi.header b = some hdr ∧
        wApi.parasHeads (wApi.headerHash hdr) = some bytes ∧
        wApi.decodeParaHeader bytes = some p) changes [⟨5, 100⟩] :=
  prover_headers_between_exact wApi 3 1 [⟨5, 100⟩] (by decide)

/-- C9: in both operations, a storage-change block whose parachain head read
comes back empty makes the call abort with the Rust `.expect` panic message
rather than return an error value (provided execution reaches that block:
all earlier change blocks process fine, and — for the with-proof operation —
the finality and walk stages succeeded). -/
theorem prover_missing_head_panics :
    (∀ (api : ChainApi) (latest previous : Nat) (changes pre post : List Nat)
      (b : Nat) (hdr : RelayHeader) (done : List ParaHeader),
      api.queryStorage previous latest = some changes →
      changes = pre ++ b :: post →
      betweenLoop api pre = .ok done →
      api.header b = some hdr →
      api.parasHeads (api.headerHash hdr) = none →
      query_finalized_parachain_headers_between api latest previous =
        .panicked "Header exists in its own changeset; qed") ∧
    (∀ (api : ChainApi) (fuel latest previous : Nat) (header_numbers : List Nat)
      (hdr0 : RelayHeader) (enc : List Nat) (fp : FinalityProof)
      (tail : List RelayHeader) (changes pre post : List Nat) (b : Nat)
      (hdr : RelayHeader) (m : List (Nat × ParachainHeaderProofs)),
      api.header latest = some hdr0 →
      api.proveFinality hdr0.number = some enc →
      api.decodeFinalityProof enc = some fp →
      walkFrom api fuel hdr0.parent_hash previous = .ok tail →
      api.queryStorage previous latest = some changes →
      changes = pre ++ b :: post →
      processChanges api header_numbers pre [] = .ok m →
      api.header b = some hdr →
      api.parasHeads (api.headerHash hdr) = none →
      query_finalized_parachain_headers_with_proof api fuel latest previous
        header_numbers = .panicked "Header exists in its own changeset; qed") := by
  constructor
  · intro api latest previous changes pre post b hdr done hqs hsplit hpre hh hph
    unfold query_finalized_parachain_headers_between
    rw [hqs]
    dsimp only
    rw [hsplit]
    refine betweenLoop_append_panic api pre (b :: post) done _ hpre ?_
    simp only [betweenLoop]
    rw [hh]
    dsimp only
    rw [hph]
  · intro api fuel latest previous hn hdr0 enc fp tail changes pre post b hdr m
      hh0 hpf hdec hw hqs hsplit hpc hh hph
    unfold query_finalized_parachain_headers_with_proof
    rw [hh0]
    dsimp only
    rw [hpf]
    dsimp only
    rw [hdec]
    dsimp only
    rw [hw]
    dsimp only
    rw [hqs]
    dsimp only
    rw [hsplit]
    have hpanic : processChanges api hn (pre ++ b :: post) [] =
        .panicked "Header exists in its own changeset; qed" := by
      refine processChanges_append_panic api hn pre (b :: post) [] m _ hpc ?_
      simp only [processChanges]
      rw [hh]
      dsimp only
      rw [hph]
    rw [hpanic]

/-- Witness for C9 at the concrete facade `panicApi`: both operations abort
with the `.expect` message. -/
theorem prover_missing_head_panics_witness :
    query_finalized_parachain_headers_between panicApi 3 2 =
      .panicked "Header exists in its own changeset; qed" ∧
    query_finalized_parachain_headers_with_proof panicApi 5 3 2 [1] =
      .panicked "Header exists in its own changeset; qed" :=
  ⟨prover_missing_head_panics.1 panicApi 3 2 [5] [] [] 5 ⟨5, 4⟩ []
      (by decide) rfl rfl (by decide) (by decide),
   prover_missing_head_panics.2 panicApi 5 3 2 [1] ⟨3, 2⟩ [7] ⟨3, [9], []⟩ []
      [5] [] [] 5 ⟨5, 4⟩ []
      (by decide) (by decide) (by decide) (by decide) (by decide) rfl rfl
      (by decide) (by decide)⟩

end GrandpaProver
